import Mathlib

/-!
Verification of the `CspaceFreePolytopeBase` core of the C-space free
region certifier (drake, `geometry/optimization/cspace_free_polytope_base.h`).

The repository provides the header (types, member declarations and their
documentation); the implementation file is not part of the sources, so the
operations are modelled from the specification, faithful to its words.
Monomials in the tangent variables `s` and the slack variables `y` are
represented as multisets of variable ids (multiplication is multiset sum, the
exponent of a variable is its multiplicity).  Polynomials with rational
coefficients are formal lists of (coefficient, monomial) terms, compared
through their coefficient function.
-/

namespace CspaceFree

/-- A monomial over variable ids: the multiset of its variables, each with
multiplicity equal to its exponent. -/
abbrev Monomial := Multiset Nat

/-- Modelled from the spec: the multilinear monomial basis over a list of
variables — every monomial with each variable's exponent 0 or 1 (§4.3,
`monomial_basis_array[0]`; implementation file not under the sources). -/
def mulMonomials : List Nat → List Monomial
  | [] => [0]
  | v :: vs => mulMonomials vs ++ (mulMonomials vs).map (fun m => v ::ₘ m)

/-- The 4-entry monomial basis array cached per body pair
(`map_body_to_monomial_basis_array_`): entry 0 is the basis over the chain
variables, entry i+1 is entry 0 scaled by the i-th slack variable. -/
structure MBArray where
  e0 : List Monomial
  e1 : List Monomial
  e2 : List Monomial
  e3 : List Monomial
deriving DecidableEq

/-- Modelled from the spec: computing the monomial basis array for a body
pair with chain variables `chain` and slack variables `y` (§4.3:
`basis[0]` = multilinear monomials of the chain variables,
`basis[i+1] = y_i * basis[0]`; `CalcMonomialBasis` body not under the
sources). -/
def calcMonomialBasisArray (y : Fin 3 → Nat) (chain : List Nat) : MBArray :=
  { e0 := mulMonomials chain
    e1 := (mulMonomials chain).map (fun m => y 0 ::ₘ m)
    e2 := (mulMonomials chain).map (fun m => y 1 ::ₘ m)
    e3 := (mulMonomials chain).map (fun m => y 2 ::ₘ m) }

theorem length_mulMonomials (vs : List Nat) :
    (mulMonomials vs).length = 2 ^ vs.length := by
  induction vs with
  | nil => rfl
  | cons v vs ih =>
    simp [mulMonomials, ih, List.length_append, pow_succ]
    ring

theorem support_mulMonomials (vs : List Nat) (m : Monomial)
    (hm : m ∈ mulMonomials vs) (v : Nat) (hv : v ∉ vs) : m.count v = 0 := by
  induction vs generalizing m with
  | nil =>
    simp [mulMonomials] at hm
    subst hm
    simp
  | cons w ws ih =>
    simp only [mulMonomials, List.mem_append, List.mem_map] at hm
    have hvw : v ≠ w := fun h => hv (h ▸ List.mem_cons_self w ws)
    have hvws : v ∉ ws := fun h => hv (List.mem_cons_of_mem w h)
    rcases hm with hm | ⟨m', hm', rfl⟩
    · exact ih m hm hvws
    · simp [Multiset.count_cons, hvw, ih m' hm' hvws]

theorem count_mulMonomials_le_one (vs : List Nat) (hnd : vs.Nodup)
    (m : Monomial) (hm : m ∈ mulMonomials vs) (v : Nat) : m.count v ≤ 1 := by
  induction vs generalizing m with
  | nil =>
    simp [mulMonomials] at hm
    subst hm
    simp
  | cons w ws ih =>
    have hnd' : ws.Nodup := hnd.of_cons
    simp only [mulMonomials, List.mem_append, List.mem_map] at hm
    rcases hm with hm | ⟨m', hm', rfl⟩
    · exact ih hnd' m hm
    · rcases eq_or_ne v w with rfl | hvw
      · have : m'.count v = 0 := by
          by_contra hc
          have hvmem : v ∈ m' := by
            rwa [← Multiset.count_pos, Nat.pos_iff_ne_zero]
          have := support_mulMonomials ws m' hm' v ?_
          · omega
          · intro hvin
            exact (List.nodup_cons.mp hnd).1 hvin
        simp [Multiset.count_cons, this]
      · have := ih hnd' m' hm'
        simp [Multiset.count_cons, hvw]
        omega


theorem nodup_mulMonomials (vs : List Nat) (hnd : vs.Nodup) :
    (mulMonomials vs).Nodup := by
  induction vs with
  | nil => simp [mulMonomials]
  | cons w ws ih =>
    have hw : w ∉ ws := (List.nodup_cons.mp hnd).1
    have hnd' : ws.Nodup := hnd.of_cons
    refine List.Nodup.append (ih hnd') ?_ ?_
    · refine (ih hnd').map ?_
      intro a b hab
      have := Multiset.cons_inj_right (a := w) (s := a) (t := b)
      exact this.mp hab
    · intro x hx hx'
      rcases List.mem_map.mp hx' with ⟨m', _, rfl⟩
      have h0 : (w ::ₘ m').count w = 0 := support_mulMonomials _ _ hx w hw
      simp [Multiset.count_cons_self] at h0

theorem mem_mulMonomials (vs : List Nat) (m : Monomial)
    (hle : ∀ v, m.count v ≤ 1) (hsupp : ∀ v, v ∈ m → v ∈ vs) :
    m ∈ mulMonomials vs := by
  induction vs generalizing m with
  | nil =>
    have : m = 0 := by
      by_contra hne
      obtain ⟨v, hv⟩ := Multiset.exists_mem_of_ne_zero hne
      exact absurd (hsupp v hv) (List.not_mem_nil v)
    simp [this, mulMonomials]
  | cons w ws ih =>
    by_cases hwm : w ∈ m
    · have hm' : m = w ::ₘ m.erase w := (Multiset.cons_erase hwm).symm
      have hle' : ∀ v, (m.erase w).count v ≤ 1 := by
        intro v
        calc (m.erase w).count v ≤ m.count v := Multiset.count_le_of_le v (Multiset.erase_le w m)
        _ ≤ 1 := hle v
      have hwm' : w ∉ m.erase w := by
        have hcw : m.count w ≤ 1 := hle w
        have : (m.erase w).count w = m.count w - 1 := by
          simp [Multiset.count_erase_self]
        intro hin
        have := Multiset.count_pos.mpr hin
        omega
      have hsupp' : ∀ v, v ∈ m.erase w → v ∈ ws := by
        intro v hv
        have hvm : v ∈ m := Multiset.mem_of_mem_erase hv
        rcases List.mem_cons.mp (hsupp v hvm) with h | h
        · exact absurd (h ▸ hv) hwm'
        · exact h
      have := ih (m.erase w) hle' hsupp'
      rw [hm']
      simp only [mulMonomials, List.mem_append, List.mem_map]
      exact Or.inr ⟨m.erase w, this, rfl⟩
    · have hsupp' : ∀ v, v ∈ m → v ∈ ws := by
        intro v hv
        rcases List.mem_cons.mp (hsupp v hv) with h | h
        · exact absurd (h ▸ hv) hwm
        · exact h
      simp only [mulMonomials, List.mem_append]
      exact Or.inl (ih m hle hsupp')

/-- C3: for a body pair with chain variables `chain` (deduplicated), entry 0
of the cached 4-entry monomial basis array is exactly the set of multilinear
monomials over the chain variables (each exponent in {0, 1}, no
duplicates, 2^k monomials for k chain variables), and entry i+1 is entry 0
with every monomial multiplied by the i-th slack variable. -/
theorem monomial_basis_array_spec (y : Fin 3 → Nat) (chain : List Nat)
    (hnd : chain.Nodup) :
    (∀ m ∈ (calcMonomialBasisArray y chain).e0, ∀ v, m.count v ≤ 1) ∧
    (∀ m : Monomial, (∀ v, m.count v ≤ 1) → (∀ v, v ∈ m → v ∈ chain) →
      m ∈ (calcMonomialBasisArray y chain).e0) ∧
    (calcMonomialBasisArray y chain).e0.Nodup ∧
    (calcMonomialBasisArray y chain).e0.length = 2 ^ chain.length ∧
    (calcMonomialBasisArray y chain).e1 =
      (calcMonomialBasisArray y chain).e0.map (fun m => y 0 ::ₘ m) ∧
    (calcMonomialBasisArray y chain).e2 =
      (calcMonomialBasisArray y chain).e0.map (fun m => y 1 ::ₘ m) ∧
    (calcMonomialBasisArray y chain).e3 =
      (calcMonomialBasisArray y chain).e0.map (fun m => y 2 ::ₘ m) := by
  refine ⟨?_, ?_, ?_, ?_, rfl, rfl, rfl⟩
  · intro m hm v
    exact count_mulMonomials_le_one chain hnd m hm v
  · intro m hle hsupp
    exact mem_mulMonomials chain m hle hsupp
  · exact nodup_mulMonomials chain hnd
  · exact length_mulMonomials chain

/-- Witness for C3 at a concrete input: chain variables [1, 2], slack
variables y = (10, 11, 12). -/
theorem monomial_basis_array_spec_witness :
    ([1, 2] : List Nat).Nodup ∧
    (calcMonomialBasisArray (fun i => 10 + i) [1, 2]).e0.length = 2 ^ 2 :=
  ⟨by decide, (monomial_basis_array_spec (fun i => 10 + i) [1, 2] (by decide)).2.2.2.1⟩


/-- Size of the lower-triangular part of an n-by-n Gram matrix. -/
def gramLowerSize (gramRows : Nat) : Nat := gramRows * (gramRows + 1) / 2

/-- Modelled from the spec: `internal::GetGramVarSize` — the total size of the
lower-triangular variables of the Gram matrices of the layout (§4.4; the
function body is not under the sources).  With `num_y = 0` one Gram matrix
sized to basis[0]; with `num_y > 0` and `with_cross_y` one Gram matrix over
the concatenation of basis[0] and the `num_y` scaled bases; otherwise `num_y`
Gram matrices each pairing basis[0] with one scaled basis. -/
def GetGramVarSize (monomial_basis_array : MBArray) (with_cross_y : Bool)
    (num_y : Nat) : Nat :=
  if num_y = 0 then gramLowerSize monomial_basis_array.e0.length
  else if with_cross_y then
    gramLowerSize ((1 + num_y) * monomial_basis_array.e0.length)
  else num_y * gramLowerSize (2 * monomial_basis_array.e0.length)

/-- An n-by-n matrix of decision-variable ids, allocated to zero. -/
def zeroMat (n : Nat) : List (List Nat) := List.replicate n (List.replicate n 0)

/-- The `internal::GramAndMonomialBasis` struct: the Gram matrices and the monomial basis
of each, together with the total Gram variable count. -/
structure GramAndMonomialBasis where
  gram_var_size : Nat
  grams : List (List (List Nat))
  monomial_basis : List (List Monomial)
deriving DecidableEq

/-- Entry i of the 4-entry monomial basis array. -/
def MBArray.entry (arr : MBArray) : Nat → List Monomial
  | 0 => arr.e0
  | 1 => arr.e1
  | 2 => arr.e2
  | 3 => arr.e3
  | _ => []

/-- Modelled from the spec: the `GramAndMonomialBasis` constructor (§4.4 and
the header documentation of lines 269-305; the body is not under the
sources).  `num_y = 0`: one Gram over basis[0].  `num_y > 0` with cross
terms: one Gram over the concatenation [basis[0]; basis[1]; ...;
basis[num_y]].  Without cross terms: `num_y` Grams, the i-th over
[basis[0]; basis[i+1]]. -/
def mkGramAndMonomialBasis (arr : MBArray) (with_cross_y : Bool)
    (num_y : Nat) : GramAndMonomialBasis :=
  if num_y = 0 then
    { gram_var_size := GetGramVarSize arr with_cross_y num_y
      grams := [zeroMat arr.e0.length]
      monomial_basis := [arr.e0] }
  else if with_cross_y then
    { gram_var_size := GetGramVarSize arr with_cross_y num_y
      grams := [zeroMat ((1 + num_y) * arr.e0.length)]
      monomial_basis := [((List.range (num_y + 1)).map arr.entry).flatten] }
  else
    { gram_var_size := GetGramVarSize arr with_cross_y num_y
      grams := List.replicate num_y (zeroMat (2 * arr.e0.length))
      monomial_basis := (List.range num_y).map (fun i => arr.e0 ++ arr.entry (i + 1)) }

/-- C1: `GetGramVarSize` returns the total lower-triangular Gram variable
count of the layout: `n*(n+1)/2` when `num_y = 0`; one Gram of size
`(1+num_y)*n` when `num_y > 0` with cross terms; `num_y` Grams of size `2*n`
otherwise.  In particular for `num_y = 2`: with cross terms exactly one Gram
of size `3*n` and `(3*n)*(3*n+1)/2` variables, without cross terms exactly
two Grams of size `2*n` and `2*((2*n)*(2*n+1)/2)` variables. -/
theorem GetGramVarSize_spec (arr : MBArray) (n : Nat) (hn : arr.e0.length = n)
    (with_cross_y : Bool) (num_y : Nat) :
    (num_y = 0 → GetGramVarSize arr with_cross_y num_y = n * (n + 1) / 2) ∧
    (0 < num_y → with_cross_y = true →
      GetGramVarSize arr with_cross_y num_y =
        ((1 + num_y) * n) * ((1 + num_y) * n + 1) / 2) ∧
    (0 < num_y → with_cross_y = false →
      GetGramVarSize arr with_cross_y num_y =
        num_y * ((2 * n) * (2 * n + 1) / 2)) ∧
    (mkGramAndMonomialBasis arr true 2).grams.length = 1 ∧
    (∀ M ∈ (mkGramAndMonomialBasis arr true 2).grams, M.length = 3 * n) ∧
    GetGramVarSize arr true 2 = (3 * n) * (3 * n + 1) / 2 ∧
    (mkGramAndMonomialBasis arr false 2).grams.length = 2 ∧
    (∀ M ∈ (mkGramAndMonomialBasis arr false 2).grams, M.length = 2 * n) ∧
    GetGramVarSize arr false 2 = 2 * ((2 * n) * (2 * n + 1) / 2) := by
  subst hn
  refine ⟨?_, ?_, ?_, ?_, ?_, ?_, ?_, ?_, ?_⟩
  · intro h0
    simp [GetGramVarSize, gramLowerSize, h0]
  · intro hpos hcy
    subst hcy
    simp [GetGramVarSize, gramLowerSize, Nat.pos_iff_ne_zero.mp hpos]
  · intro hpos hcy
    subst hcy
    simp [GetGramVarSize, gramLowerSize, Nat.pos_iff_ne_zero.mp hpos]
  · simp [mkGramAndMonomialBasis]
  · intro M hM
    simp [mkGramAndMonomialBasis, zeroMat] at hM
    subst hM
    simp [List.length_replicate]
  · have : (1 + 2) * arr.e0.length = 3 * arr.e0.length := by ring
    simp [GetGramVarSize, gramLowerSize, this]
  · simp [mkGramAndMonomialBasis]
  · intro M hM
    simp [mkGramAndMonomialBasis, zeroMat] at hM
    subst hM
    simp [List.length_replicate]
  · simp [GetGramVarSize, gramLowerSize]

/-- Witness for C1 at a concrete input: a basis array whose entry 0 has one
monomial, with `num_y = 2` and cross terms. -/
theorem GetGramVarSize_spec_witness :
    0 < 2 ∧
    GetGramVarSize (MBArray.mk [0] [] [] []) true 2 =
      ((1 + 2) * 1) * ((1 + 2) * 1 + 1) / 2 :=
  ⟨by decide,
    (GetGramVarSize_spec (MBArray.mk [0] [] [] []) 1 rfl true 2).2.1
      (by decide) rfl⟩

/-- C10: the free function `GetGramVarSize` agrees with the
`gram_var_size` field of a `GramAndMonomialBasis` built from the same
arguments, and with the sum over that object's Gram matrices of
`n_i*(n_i+1)/2` where `n_i` is the i-th Gram's row count. -/
theorem gram_var_size_refinement (arr : MBArray) (with_cross_y : Bool)
    (num_y : Nat) (hny : num_y ≤ 3) :
    GetGramVarSize arr with_cross_y num_y =
      (mkGramAndMonomialBasis arr with_cross_y num_y).gram_var_size ∧
    GetGramVarSize arr with_cross_y num_y =
      ((mkGramAndMonomialBasis arr with_cross_y num_y).grams.map
        (fun M => M.length * (M.length + 1) / 2)).sum := by
  constructor
  · by_cases h0 : num_y = 0 <;> by_cases hcy : with_cross_y <;>
      simp [mkGramAndMonomialBasis, h0, hcy]
  · by_cases h0 : num_y = 0
    · simp [mkGramAndMonomialBasis, GetGramVarSize, gramLowerSize, h0, zeroMat]
    · by_cases hcy : with_cross_y
      · simp [mkGramAndMonomialBasis, GetGramVarSize, gramLowerSize, h0, hcy,
          zeroMat]
      · simp [mkGramAndMonomialBasis, GetGramVarSize, gramLowerSize, h0,
          hcy, List.map_replicate, List.sum_replicate,
          smul_eq_mul, zeroMat, List.length_replicate]

/-- Witness for C10 at a concrete input: a basis array whose entry 0 has two
monomials, with `num_y = 3` and no cross terms. -/
theorem gram_var_size_refinement_witness :
    (3 : Nat) ≤ 3 ∧
    GetGramVarSize (MBArray.mk [0, 0] [] [] []) false 3 =
      ((mkGramAndMonomialBasis (MBArray.mk [0, 0] [] [] []) false 3).grams.map
        (fun M => M.length * (M.length + 1) / 2)).sum :=
  ⟨by decide,
    (gram_var_size_refinement (MBArray.mk [0, 0] [] [] []) false 3
      (by decide)).2⟩


/-- The `SortedPair(x, y)` key: the unordered pair as (min, max). -/
def sortPair (x y : Nat) : Nat × Nat := (min x y, max x y)

theorem sortPair_comm (x y : Nat) : sortPair x y = sortPair y x := by
  simp [sortPair, Nat.min_comm x y, Nat.max_comm x y]

/-- All unordered pairs of distinct positions of a list, as sorted pairs. -/
def allPairs : List Nat → List (Nat × Nat)
  | [] => []
  | x :: xs => xs.map (sortPair x) ++ allPairs xs

theorem mem_allPairs (l : List Nat) (p : Nat × Nat) (hp : p ∈ allPairs l) :
    p.1 ∈ l ∧ p.2 ∈ l := by
  induction l with
  | nil => simp [allPairs] at hp
  | cons x xs ih =>
    simp only [allPairs, List.mem_append, List.mem_map] at hp
    rcases hp with ⟨y, hy, rfl⟩ | hp
    · constructor
      · rcases min_choice x y with h | h <;> simp [sortPair, h, hy]
      · rcases max_choice x y with h | h <;> simp [sortPair, h, hy]
    · exact ⟨List.mem_cons_of_mem x (ih hp).1, List.mem_cons_of_mem x (ih hp).2⟩

theorem sortPair_inj (x y1 y2 : Nat) (h : sortPair x y1 = sortPair x y2) :
    y1 = y2 := by
  have h1 : min x y1 = min x y2 := congrArg Prod.fst h
  have h2 : max x y1 = max x y2 := congrArg Prod.snd h
  have e1 : min x y1 + max x y1 = x + y1 := min_add_max x y1
  have e2 : min x y2 + max x y2 = x + y2 := min_add_max x y2
  omega

theorem nodup_allPairs (l : List Nat) (hnd : l.Nodup) : (allPairs l).Nodup := by
  induction l with
  | nil => simp [allPairs]
  | cons x xs ih =>
    have hx : x ∉ xs := (List.nodup_cons.mp hnd).1
    have hnd' : xs.Nodup := hnd.of_cons
    refine List.Nodup.append ?_ (ih hnd') ?_
    · exact hnd'.map_on (fun a _ b _ hab => sortPair_inj x a b hab)
    · intro p hp1 hp2
      rcases List.mem_map.mp hp1 with ⟨y, hy, rfl⟩
      have hmem := mem_allPairs xs _ hp2
      have hx1 := hmem.1
      have hx2 := hmem.2
      rcases min_choice x y with h | h
    
      · simp only [sortPair, h] at hx1
        exact hx hx1
      · rcases max_choice x y with h2 | h2
        · simp only [sortPair, h2] at hx2
          exact hx hx2
        · have := min_add_max x y
          have hxy : x = y := by omega
          exact hx (hxy ▸ hy)

/-- Modelled from the spec: the eligible geometry pairs — all unordered pairs
of geometries on different, non-welded bodies (§4.1; the constructor body is
not under the sources). -/
def eligiblePairs (geoms : List Nat) (bodyOf : Nat → Nat)
    (welded : Nat → Nat → Bool) : List (Nat × Nat) :=
  (allPairs geoms).filter (fun p => bodyOf p.1 != bodyOf p.2 && !welded p.1 p.2)

/-- Modelled from the spec: the retained pairs — eligible pairs minus the
ignore-set; one separating plane is allocated per retained pair in order
(`separating_planes_`). -/
def retainedPairs (geoms : List Nat) (bodyOf : Nat → Nat)
    (welded : Nat → Nat → Bool) (ignored : Nat × Nat → Bool) :
    List (Nat × Nat) :=
  (eligiblePairs geoms bodyOf welded).filter (fun p => !ignored p)

/-- Pair each list element with its running index, starting at `start`. -/
def indexPairs : List (Nat × Nat) → Nat → List ((Nat × Nat) × Nat)
  | [], _ => []
  | p :: rest, start => (p, start) :: indexPairs rest (start + 1)

/-- First-match association-list lookup. -/
def lookupIdx (k : Nat × Nat) : List ((Nat × Nat) × Nat) → Option Nat
  | [] => none
  | (k2, v) :: rest => if k2 = k then some v else lookupIdx k rest

/-- Modelled from the spec: `map_geometries_to_separating_planes_` — each
retained pair mapped to its plane index, in allocation order. -/
def planeIndexMap (geoms : List Nat) (bodyOf : Nat → Nat)
    (welded : Nat → Nat → Bool) (ignored : Nat × Nat → Bool) :
    List ((Nat × Nat) × Nat) :=
  indexPairs (retainedPairs geoms bodyOf welded ignored) 0

/-- Modelled from the spec: `GetSeparatingPlaneIndex` — the plane index of a
sorted geometry pair, `-1` when the pair is absent from the map (header lines
135-139; the body is not under the sources). -/
def GetSeparatingPlaneIndex (m : List ((Nat × Nat) × Nat)) (pair : Nat × Nat) :
    Int :=
  match lookupIdx pair m with
  | some i => (i : Int)
  | none => -1

theorem lookupIdx_indexPairs_some (l : List (Nat × Nat)) (s : Nat)
    (q : Nat × Nat) (i : Nat) (h : lookupIdx q (indexPairs l s) = some i) :
    ∃ j, i = s + j ∧ l.get? j = some q := by
  induction l generalizing s with
  | nil => simp [indexPairs, lookupIdx] at h
  | cons p rest ih =>
    simp only [indexPairs, lookupIdx] at h
    by_cases hpq : p = q
    · rw [if_pos hpq] at h
      injection h with h
      exact ⟨0, by omega, by simp [hpq]⟩
    · rw [if_neg hpq] at h
      obtain ⟨j, hj, hget⟩ := ih (s + 1) h
      exact ⟨j + 1, by omega, by simpa using hget⟩

theorem lookupIdx_indexPairs_of_get (l : List (Nat × Nat)) (hnd : l.Nodup)
    (s j : Nat) (q : Nat × Nat) (h : l.get? j = some q) :
    lookupIdx q (indexPairs l s) = some (s + j) := by
  induction l generalizing s j with
  | nil => simp at h
  | cons p rest ih =>
    match j with
    | 0 =>
      simp only [List.get?] at h
      injection h with h
      simp [indexPairs, lookupIdx, h]
    | j + 1 =>
      simp only [List.get?] at h
      have hq : q ∈ rest := List.get?_mem h
      have hpq : p ≠ q := by
        intro hc
        exact (List.nodup_cons.mp hnd).1 (hc ▸ hq)
      simp only [indexPairs, lookupIdx, if_neg hpq]
      have := ih hnd.of_cons (s + 1) j h
      rw [this]
      congr 1
      omega

theorem nodup_retainedPairs (geoms : List Nat) (bodyOf : Nat → Nat)
    (welded : Nat → Nat → Bool) (ignored : Nat × Nat → Bool)
    (hnd : geoms.Nodup) :
    (retainedPairs geoms bodyOf welded ignored).Nodup :=
  ((nodup_allPairs geoms hnd).filter _).filter _

theorem length_filter_sub (l : List (Nat × Nat)) (f : Nat × Nat → Bool) :
    (l.filter (fun x => !f x)).length = l.length - (l.filter f).length := by
  induction l with
  | nil => rfl
  | cons x xs ih =>
    have hle : (xs.filter f).length ≤ xs.length := List.length_filter_le f xs
    by_cases hx : f x <;> simp [hx, ih] <;> omega


/-- C4: the number of separating planes equals the number of eligible
geometry pairs minus the eligible pairs in the ignore-set; the
pair-to-plane-index map covers exactly the retained pairs, no two pairs share
a plane index, and every plane index is unique and lies in
[0, number of planes). -/
theorem plane_assignment_spec (geoms : List Nat) (bodyOf : Nat → Nat)
    (welded : Nat → Nat → Bool) (ignored : Nat × Nat → Bool)
    (hnd : geoms.Nodup) :
    (retainedPairs geoms bodyOf welded ignored).length =
      (eligiblePairs geoms bodyOf welded).length -
        ((eligiblePairs geoms bodyOf welded).filter
          (fun p => ignored p)).length ∧
    (∀ p : Nat × Nat,
      (∃ i, lookupIdx p (planeIndexMap geoms bodyOf welded ignored) = some i)
        ↔ p ∈ retainedPairs geoms bodyOf welded ignored) ∧
    (∀ p q : Nat × Nat, ∀ i : Nat,
      lookupIdx p (planeIndexMap geoms bodyOf welded ignored) = some i →
      lookupIdx q (planeIndexMap geoms bodyOf welded ignored) = some i →
      p = q) ∧
    (∀ p : Nat × Nat, ∀ i : Nat,
      lookupIdx p (planeIndexMap geoms bodyOf welded ignored) = some i →
      i < (retainedPairs geoms bodyOf welded ignored).length) ∧
    (∀ i : Nat, i < (retainedPairs geoms bodyOf welded ignored).length →
      ∃ p, lookupIdx p (planeIndexMap geoms bodyOf welded ignored) = some i)
    := by
  refine ⟨?_, ?_, ?_, ?_, ?_⟩
  · exact length_filter_sub (eligiblePairs geoms bodyOf welded)
      (fun p => ignored p)
  · intro p
    constructor
    · rintro ⟨i, hi⟩
      obtain ⟨j, hj, hget⟩ := lookupIdx_indexPairs_some _ _ _ _ hi
      exact List.get?_mem hget
    · intro hmem
      obtain ⟨j, hget⟩ := List.get?_of_mem hmem
      exact ⟨0 + j, lookupIdx_indexPairs_of_get _
        (nodup_retainedPairs geoms bodyOf welded ignored hnd) 0 j p hget⟩
  · intro p q i hp hq
    obtain ⟨j1, hj1, hget1⟩ := lookupIdx_indexPairs_some _ _ _ _ hp
    obtain ⟨j2, hj2, hget2⟩ := lookupIdx_indexPairs_some _ _ _ _ hq
    have : j1 = j2 := by omega
    subst this
    rw [hget1] at hget2
    exact Option.some.inj hget2
  · intro p i hp
    obtain ⟨j, hj, hget⟩ := lookupIdx_indexPairs_some _ _ _ _ hp
    have hlt := List.get?_eq_some.mp hget
    obtain ⟨hjl, _⟩ := hlt
    omega
  · intro i hi
    have hget : (retainedPairs geoms bodyOf welded ignored).get? i =
        some ((retainedPairs geoms bodyOf welded ignored).get ⟨i, hi⟩) :=
      List.get?_eq_get hi
    refine ⟨(retainedPairs geoms bodyOf welded ignored).get ⟨i, hi⟩, ?_⟩
    have := lookupIdx_indexPairs_of_get _
      (nodup_retainedPairs geoms bodyOf welded ignored hnd) 0 i _ hget
    simpa using this

/-- Witness for C4 at a concrete input: geometries 1, 2, 3 on three distinct
bodies, nothing welded, the pair (1, 2) ignored. -/
theorem plane_assignment_spec_witness :
    ([1, 2, 3] : List Nat).Nodup ∧
    (retainedPairs [1, 2, 3] (fun g => g) (fun _ _ => false)
        (fun p => decide (p = (1, 2)))).length =
      (eligiblePairs [1, 2, 3] (fun g => g) (fun _ _ => false)).length -
        ((eligiblePairs [1, 2, 3] (fun g => g) (fun _ _ => false)).filter
          (fun p => decide (p = (1, 2)))).length :=
  ⟨by decide,
    (plane_assignment_spec [1, 2, 3] (fun g => g) (fun _ _ => false)
      (fun p => decide (p = (1, 2))) (by decide)).1⟩

/-- C5: `GetSeparatingPlaneIndex` returns the sentinel -1 for every pair
absent from the pair-to-plane map (it is a total function, so it cannot
throw), and returns the pair's plane index for every retained pair. -/
theorem separating_plane_index_sentinel (geoms : List Nat) (bodyOf : Nat → Nat)
    (welded : Nat → Nat → Bool) (ignored : Nat × Nat → Bool)
    (hnd : geoms.Nodup) (p : Nat × Nat) :
    (p ∉ retainedPairs geoms bodyOf welded ignored →
      GetSeparatingPlaneIndex (planeIndexMap geoms bodyOf welded ignored) p
        = -1) ∧
    (∀ j : Nat, (retainedPairs geoms bodyOf welded ignored).get? j = some p →
      GetSeparatingPlaneIndex (planeIndexMap geoms bodyOf welded ignored) p
        = (j : Int)) := by
  constructor
  · intro hnotmem
    unfold GetSeparatingPlaneIndex
    cases hlk : lookupIdx p (planeIndexMap geoms bodyOf welded ignored) with
    | none => rfl
    | some i =>
      obtain ⟨j, hj, hget⟩ := lookupIdx_indexPairs_some _ _ _ _ hlk
      exact absurd (List.get?_mem hget) hnotmem
  · intro j hget
    have hlk := lookupIdx_indexPairs_of_get _
      (nodup_retainedPairs geoms bodyOf welded ignored hnd) 0 j p hget
    unfold GetSeparatingPlaneIndex planeIndexMap
    rw [show (0 + j) = j from by omega] at hlk
    rw [hlk]

/-- Witness for C5 at a concrete input: the ignored pair (1, 2) gets the
sentinel -1. -/
theorem separating_plane_index_sentinel_witness :
    (1, 2) ∉ retainedPairs [1, 2, 3] (fun g => g) (fun _ _ => false)
      (fun p => decide (p = (1, 2))) ∧
    GetSeparatingPlaneIndex
      (planeIndexMap [1, 2, 3] (fun g => g) (fun _ _ => false)
        (fun p => decide (p = (1, 2)))) (1, 2) = -1 :=
  ⟨by decide,
    (separating_plane_index_sentinel [1, 2, 3] (fun g => g) (fun _ _ => false)
      (fun p => decide (p = (1, 2))) (by decide) (1, 2)).1 (by decide)⟩

/-- C6: the separating-plane index lookup is symmetric in the two geometry
ids: querying (a, b) and querying (b, a) build the same sorted pair and
return the same result. -/
theorem plane_index_lookup_symmetric (m : List ((Nat × Nat) × Nat))
    (a b : Nat) :
    GetSeparatingPlaneIndex m (sortPair a b) =
      GetSeparatingPlaneIndex m (sortPair b a) := by
  rw [sortPair_comm]


/-- The lazily populated monomial-basis cache: the cached entries keyed by
sorted body pair, plus the number of basis computations performed so far. -/
structure BasisCacheState where
  entries : List ((Nat × Nat) × MBArray)
  ncompute : Nat
deriving DecidableEq

/-- First-match lookup in the cache's association list. -/
def lookupArr (k : Nat × Nat) : List ((Nat × Nat) × MBArray) → Option MBArray
  | [] => none
  | (k2, v) :: rest => if k2 = k then some v else lookupArr k rest

/-- Modelled from the spec: the monomial-basis cache request — on first use
compute the array for the sorted body pair and cache it; afterwards return
the cached entry without recomputation (§4.3, §6 `MonomialBasisOf`;
`CalcMonomialBasis`'s body is not under the sources).  `computeArr` is the
underlying per-body-pair computation. -/
def getMonomialBasisArray (computeArr : Nat × Nat → MBArray)
    (st : BasisCacheState) (body1 body2 : Nat) :
    MBArray × BasisCacheState :=
  let key := sortPair body1 body2
  match lookupArr key st.entries with
  | some v => (v, st)
  | none =>
    let v := computeArr key
    (v, ⟨st.entries ++ [(key, v)], st.ncompute + 1⟩)

theorem lookupArr_append_self (l : List ((Nat × Nat) × MBArray))
    (k : Nat × Nat) (v : MBArray) (h : lookupArr k l = none) :
    lookupArr k (l ++ [(k, v)]) = some v := by
  induction l with
  | nil => simp [lookupArr]
  | cons kv rest ih =>
    obtain ⟨k2, v2⟩ := kv
    simp only [lookupArr] at h ⊢
    by_cases hk : k2 = k
    · rw [if_pos hk] at h
      exact absurd h (by simp)
    · rw [if_neg hk] at h ⊢
      exact ih h

/-- C7: the monomial basis array is computed on first use and cached keyed by
the unordered body pair; after the first request, a request for the same
body pair — in either argument order, hence from any geometry pair whose
owning bodies coincide — returns the identical cached entry, leaves the
cache unchanged, and performs no recomputation (the computation count does
not move). -/
theorem monomial_basis_cache_spec (computeArr : Nat × Nat → MBArray)
    (st : BasisCacheState) (a b : Nat) :
    getMonomialBasisArray computeArr
        (getMonomialBasisArray computeArr st a b).2 a b =
      ((getMonomialBasisArray computeArr st a b).1,
        (getMonomialBasisArray computeArr st a b).2) ∧
    getMonomialBasisArray computeArr
        (getMonomialBasisArray computeArr st a b).2 b a =
      ((getMonomialBasisArray computeArr st a b).1,
        (getMonomialBasisArray computeArr st a b).2) ∧
    (getMonomialBasisArray computeArr
        (getMonomialBasisArray computeArr st a b).2 a b).2.ncompute =
      (getMonomialBasisArray computeArr st a b).2.ncompute := by
  cases hlk0 : lookupArr (sortPair a b) st.entries with
  | some v =>
    have h0 : getMonomialBasisArray computeArr st a b = (v, st) := by
      simp [getMonomialBasisArray, hlk0]
    have h2 : getMonomialBasisArray computeArr st b a = (v, st) := by
      simp [getMonomialBasisArray, sortPair_comm b a, hlk0]
    rw [h0]
    exact ⟨h0, h2, by rw [h0]⟩
  | none =>
    have h0 : getMonomialBasisArray computeArr st a b =
        (computeArr (sortPair a b),
          ⟨st.entries ++ [(sortPair a b, computeArr (sortPair a b))],
            st.ncompute + 1⟩) := by
      simp [getMonomialBasisArray, hlk0]
    have hlk1 : lookupArr (sortPair a b)
        (st.entries ++ [(sortPair a b, computeArr (sortPair a b))]) =
        some (computeArr (sortPair a b)) :=
      lookupArr_append_self st.entries (sortPair a b) _ hlk0
    have h1 : getMonomialBasisArray computeArr
        ⟨st.entries ++ [(sortPair a b, computeArr (sortPair a b))],
          st.ncompute + 1⟩ a b =
        (computeArr (sortPair a b),
          ⟨st.entries ++ [(sortPair a b, computeArr (sortPair a b))],
            st.ncompute + 1⟩) := by
      simp [getMonomialBasisArray, hlk1]
    have h2 : getMonomialBasisArray computeArr
        ⟨st.entries ++ [(sortPair a b, computeArr (sortPair a b))],
          st.ncompute + 1⟩ b a =
        (computeArr (sortPair a b),
          ⟨st.entries ++ [(sortPair a b, computeArr (sortPair a b))],
            st.ncompute + 1⟩) := by
      simp [getMonomialBasisArray, sortPair_comm b a, hlk1]
    rw [h0]
    exact ⟨h1, h2, by rw [h1]⟩


/-- A kinematic tree: each body's parent (the world body 0 is the root),
with the parent strictly closer to the root, and the tangent variables
mobilized by each body's inboard joint. -/
structure KinTree where
  parent : Nat → Nat
  parent_lt : ∀ i, i ≠ 0 → parent i < i
  jointVars : Nat → List Nat

/-- The bodies on the kinematic path from body `i` to the world root
(excluding the root, whose inboard joint does not exist). -/
def rootBodies (t : KinTree) (i : Nat) : List Nat :=
  if h : i = 0 then [] else i :: rootBodies t (t.parent i)
termination_by i
decreasing_by exact t.parent_lt i h

/-- Modelled from the spec: the tangent variables on the kinematic chain
between two bodies (§4.2: walk from each body to the lowest common ancestor
and union the variables mobilized by each joint on the way;
`SetIndicesOfSOnChainForBodyPair`'s body is not under the sources).  The
joints on the chain are exactly the symmetric difference of the two root
paths: the shared segment above the common ancestor cancels. -/
def sOnChain (t : KinTree) (a b : Nat) : Finset Nat :=
  (((rootBodies t a).toFinset \ (rootBodies t b).toFinset) ∪
      ((rootBodies t b).toFinset \ (rootBodies t a).toFinset)).biUnion
    (fun i => (t.jointVars i).toFinset)

/-- The full tangent-variable set of a model with `numBodies` bodies. -/
def s_set (t : KinTree) (numBodies : Nat) : Finset Nat :=
  (Finset.range numBodies).biUnion (fun i => (t.jointVars i).toFinset)

theorem mem_rootBodies_le (t : KinTree) (i : Nat) :
    ∀ j ∈ rootBodies t i, j ≤ i := by
  induction i using Nat.strong_induction_on with
  | _ i ih =>
    intro j hj
    by_cases h : i = 0
    · rw [rootBodies, dif_pos h] at hj
      simp at hj
    · rw [rootBodies, dif_neg h] at hj
      rcases List.mem_cons.mp hj with rfl | hj2
      · exact Nat.le_refl j
      · exact Nat.le_trans (ih (t.parent i) (t.parent_lt i h) j hj2)
          (Nat.le_of_lt (t.parent_lt i h))

/-- C8: for every pair of bodies of the model, the chain-variable set is a
subset of the full tangent-variable set, and it is identical regardless of
the order of the two body arguments. -/
theorem chain_vars_spec (t : KinTree) (numBodies : Nat) (a b : Nat)
    (ha : a < numBodies) (hb : b < numBodies) :
    sOnChain t a b ⊆ s_set t numBodies ∧ sOnChain t a b = sOnChain t b a := by
  constructor
  · intro x hx
    rw [sOnChain, Finset.mem_biUnion] at hx
    obtain ⟨i, hi, hxi⟩ := hx
    rw [s_set, Finset.mem_biUnion]
    refine ⟨i, Finset.mem_range.mpr ?_, hxi⟩
    rw [Finset.mem_union] at hi
    rcases hi with hi | hi
    · have hmem := (Finset.mem_sdiff.mp hi).1
      rw [List.mem_toFinset] at hmem
      exact lt_of_le_of_lt (mem_rootBodies_le t a i hmem) ha
    · have hmem := (Finset.mem_sdiff.mp hi).1
      rw [List.mem_toFinset] at hmem
      exact lt_of_le_of_lt (mem_rootBodies_le t b i hmem) hb
  · rw [sOnChain, sOnChain, Finset.union_comm]

/-- A concrete three-body serial kinematic chain used as a witness input:
body i's parent is body i-1 and its inboard joint mobilizes variable i. -/
def chainTree3 : KinTree :=
  { parent := fun i => i - 1
    parent_lt := fun i h => by
      show i - 1 < i
      omega
    jointVars := fun i => [i] }

/-- Witness for C8 at a concrete input: bodies 1 and 2 of the three-body
serial chain. -/
theorem chain_vars_spec_witness :
    (1 : Nat) < 3 ∧ (2 : Nat) < 3 ∧
    sOnChain chainTree3 1 2 ⊆ s_set chainTree3 3 :=
  ⟨by decide, by decide,
    (chain_vars_spec chainTree3 3 1 2 (by decide) (by decide)).1⟩


/-- A polynomial with rational coefficients: a formal list of
(coefficient, monomial) terms, interpreted through its coefficient
function. -/
abbrev PolyQ := List (ℚ × Monomial)

/-- The coefficient of a monomial in a formal polynomial. -/
def coeffQ (p : PolyQ) (m : Monomial) : ℚ :=
  (p.map (fun t => if t.2 = m then t.1 else 0)).sum

/-- The formal polynomial has degree at most `d`: every monomial with a
nonzero coefficient has total degree at most `d`. -/
def degLE (p : PolyQ) (d : Nat) : Prop :=
  ∀ m : Monomial, coeffQ p m ≠ 0 → Multiset.card m ≤ d

/-- The formal polynomial has degree exactly `d`. -/
def hasDeg (p : PolyQ) (d : Nat) : Prop :=
  degLE p d ∧ ∃ m : Monomial, Multiset.card m = d ∧ coeffQ p m ≠ 0

/-- Modelled from the spec: `CalcSBoundsPolynomial` — for the tangent
variables `svars` with elementwise bounds, the polynomial vectors
`s - s_lower` and `s_upper - s`, one degree-1 entry per tangent variable
(§4.5; the function body is not under the sources).  It is a plain function
of its arguments: no state is read or written, nothing is cached, and the
bounds are not validated. -/
def CalcSBoundsPolynomial (svars : List Nat) (s_lower s_upper : List ℚ) :
    List PolyQ × List PolyQ :=
  ((List.range svars.length).map (fun i =>
      [((1 : ℚ), ({svars.getD i 0} : Monomial)),
        (-(s_lower.getD i 0), (0 : Monomial))]),
    (List.range svars.length).map (fun i =>
      [((s_upper.getD i 0), (0 : Monomial)),
        ((-1 : ℚ), ({svars.getD i 0} : Monomial))]))

theorem coeffQ_two (c1 c2 : ℚ) (m1 m2 m : Monomial) :
    coeffQ [(c1, m1), (c2, m2)] m =
      (if m1 = m then c1 else 0) + (if m2 = m then c2 else 0) := by
  simp [coeffQ]

theorem getD_map_range {α : Type} (n i : Nat) (f : Nat → α) (d : α)
    (h : i < n) : ((List.range n).map f).getD i d = f i := by
  rw [List.getD_eq_getElem?_getD, List.getElem?_map, List.getElem?_range h]
  rfl

theorem linear_hasDeg_one (c0 : ℚ) (v : Nat) (c1 : ℚ) (h1 : c1 ≠ 0)
    (m1 : Monomial) (hm1 : m1 = {v}) (m0 : Monomial) (hm0 : m0 = 0) :
    hasDeg [(c1, m1), (c0, m0)] 1 ∧ hasDeg [(c0, m0), (c1, m1)] 1 := by
  subst hm1 hm0
  have hne : ({v} : Monomial) ≠ 0 := by
    intro hc
    have := congrArg Multiset.card hc
    simp at this
  constructor
  · constructor
    · intro m hm
      rw [coeffQ_two] at hm
      by_cases h1v : ({v} : Monomial) = m
      · subst h1v
        simp
      · by_cases h0v : (0 : Monomial) = m
        · subst h0v
          simp
        · rw [if_neg h1v, if_neg h0v] at hm
          simp at hm
    · refine ⟨{v}, by simp, ?_⟩
      rw [coeffQ_two, if_pos rfl, if_neg (Ne.symm hne)]
      simpa using h1
  · constructor
    · intro m hm
      rw [coeffQ_two] at hm
      by_cases h1v : ({v} : Monomial) = m
      · subst h1v
        simp
      · by_cases h0v : (0 : Monomial) = m
        · subst h0v
          simp
        · rw [if_neg h1v, if_neg h0v] at hm
          simp at hm
    · refine ⟨{v}, by simp, ?_⟩
      rw [coeffQ_two, if_neg (Ne.symm hne), if_pos rfl]
      simpa using h1

/-- C9: `CalcSBoundsPolynomial` returns two polynomial vectors with one
entry per tangent variable, the first `s - s_lower` and the second
`s_upper - s`, each entry a degree-1 polynomial in `s` — characterized by
its coefficients: entry i of the first has coefficient 1 on the monomial
`s_i`, constant `-s_lower_i` and nothing else; entry i of the second has
coefficient -1 on `s_i`, constant `s_upper_i` and nothing else.  The model
is a plain function (no state, no cache) and the theorem needs no relation
between the bounds: lower exceeding upper is not validated here. -/
theorem s_bounds_polynomial_spec (svars : List Nat) (s_lower s_upper : List ℚ)
    (hlo : s_lower.length = svars.length)
    (hup : s_upper.length = svars.length) :
    (CalcSBoundsPolynomial svars s_lower s_upper).1.length = svars.length ∧
    (CalcSBoundsPolynomial svars s_lower s_upper).2.length = svars.length ∧
    (∀ i : Nat, i < svars.length →
      coeffQ ((CalcSBoundsPolynomial svars s_lower s_upper).1.getD i [])
          {svars.getD i 0} = 1 ∧
      coeffQ ((CalcSBoundsPolynomial svars s_lower s_upper).1.getD i [])
          0 = -(s_lower.getD i 0) ∧
      (∀ m : Monomial, m ≠ {svars.getD i 0} → m ≠ 0 →
        coeffQ ((CalcSBoundsPolynomial svars s_lower s_upper).1.getD i [])
          m = 0) ∧
      hasDeg ((CalcSBoundsPolynomial svars s_lower s_upper).1.getD i []) 1) ∧
    (∀ i : Nat, i < svars.length →
      coeffQ ((CalcSBoundsPolynomial svars s_lower s_upper).2.getD i [])
          {svars.getD i 0} = -1 ∧
      coeffQ ((CalcSBoundsPolynomial svars s_lower s_upper).2.getD i [])
          0 = s_upper.getD i 0 ∧
      (∀ m : Monomial, m ≠ {svars.getD i 0} → m ≠ 0 →
        coeffQ ((CalcSBoundsPolynomial svars s_lower s_upper).2.getD i [])
          m = 0) ∧
      hasDeg ((CalcSBoundsPolynomial svars s_lower s_upper).2.getD i []) 1)
    := by
  have hne : ∀ v : Nat, ({v} : Monomial) ≠ 0 := by
    intro v hc
    have := congrArg Multiset.card hc
    simp at this
  refine ⟨by simp [CalcSBoundsPolynomial], by simp [CalcSBoundsPolynomial],
    ?_, ?_⟩
  · intro i hi
    rw [show (CalcSBoundsPolynomial svars s_lower s_upper).1.getD i [] =
        [((1 : ℚ), ({svars.getD i 0} : Monomial)),
          (-(s_lower.getD i 0), (0 : Monomial))] from
      getD_map_range _ _ _ _ hi]
    refine ⟨?_, ?_, ?_, ?_⟩
    · rw [coeffQ_two, if_pos rfl, if_neg (Ne.symm (hne _)), add_zero]
    · rw [coeffQ_two, if_neg (hne _), if_pos rfl, zero_add]
    · intro m hm1 hm0
      rw [coeffQ_two, if_neg (fun hc => hm1 hc.symm),
        if_neg (fun hc => hm0 hc.symm), add_zero]
    · exact (linear_hasDeg_one (-(s_lower.getD i 0)) (svars.getD i 0) 1
        one_ne_zero _ rfl _ rfl).1
  · intro i hi
    rw [show (CalcSBoundsPolynomial svars s_lower s_upper).2.getD i [] =
        [((s_upper.getD i 0), (0 : Monomial)),
          ((-1 : ℚ), ({svars.getD i 0} : Monomial))] from
      getD_map_range _ _ _ _ hi]
    refine ⟨?_, ?_, ?_, ?_⟩
    · rw [coeffQ_two, if_neg (fun hc => hne _ hc.symm), if_pos rfl, zero_add]
    · rw [coeffQ_two, if_pos rfl, if_neg (hne _), add_zero]
    · intro m hm1 hm0
      rw [coeffQ_two, if_neg (fun hc => hm0 hc.symm),
        if_neg (fun hc => hm1 hc.symm), add_zero]
    · exact (linear_hasDeg_one (s_upper.getD i 0) (svars.getD i 0) (-1)
        (by norm_num) _ rfl _ rfl).2

/-- Witness for C9 at a concrete input: one tangent variable with lower
bound 2 exceeding upper bound 1 — the computation is not affected. -/
theorem s_bounds_polynomial_spec_witness :
    ([(2 : ℚ)] : List ℚ).length = ([5] : List Nat).length ∧
    ([(1 : ℚ)] : List ℚ).length = ([5] : List Nat).length ∧
    (CalcSBoundsPolynomial [5] [(2 : ℚ)] [(1 : ℚ)]).1.length = 1 :=
  ⟨rfl, rfl,
    (s_bounds_polynomial_spec [5] [(2 : ℚ)] [(1 : ℚ)] rfl rfl).1⟩


/-- The caller's mathematical program, as far as `AddSos` touches it: the
positive-semidefinite constraints (each a square matrix of decision-variable
ids constrained psd), the polynomial-identity equality constraints (a
variable-linear form — a formal sum of (decision variable, monomial) terms —
equated coefficient-by-coefficient with a target polynomial), and the number
of solve invocations performed. -/
structure MathematicalProgram where
  psdConstraints : List (List (List Nat))
  eqConstraints : List (List (Nat × Monomial) × PolyQ)
  solveCalls : Nat
deriving DecidableEq

/-- A matrix of decision-variable ids is symmetric. -/
def symmMat (M : List (List Nat)) : Prop :=
  ∀ i j : Nat, (M.getD i []).getD j 0 = (M.getD j []).getD i 0

/-- Position of entry (i, j), i ≥ j, in the column-major stacked lower
triangle of an n-by-n matrix. -/
def lowerIdx (n i j : Nat) : Nat := j * n - j * (j - 1) / 2 + (i - j)

/-- Modelled from the spec: the symmetric n-by-n matrix whose lower
triangle is filled from the flat vector `lower` of decision variables
(`AddSos` places the caller's `gram_lower` variables into symmetric Gram
matrices; the body is not under the sources). -/
def symFromLower (n : Nat) (lower : List Nat) : List (List Nat) :=
  (List.range n).map (fun i => (List.range n).map (fun j =>
    if j ≤ i then lower.getD (lowerIdx n i j) 0
    else lower.getD (lowerIdx n j i) 0))

theorem symFromLower_entry_big (n : Nat) (lower : List Nat) (i j : Nat)
    (hi : n ≤ i) :
    ((symFromLower n lower).getD i []).getD j 0 = 0 := by
  have houter : (symFromLower n lower).getD i [] = [] :=
    List.getD_eq_default _ _
      (by simp only [symFromLower, List.length_map, List.length_range]; omega)
  rw [houter]
  simp

theorem symFromLower_entry_bigcol (n : Nat) (lower : List Nat) (i j : Nat)
    (hi : i < n) (hj : n ≤ j) :
    ((symFromLower n lower).getD i []).getD j 0 = 0 := by
  rw [symFromLower, getD_map_range n i _ [] hi]
  exact List.getD_eq_default _ _
    (by simp only [List.length_map, List.length_range]; omega)

theorem symFromLower_symm (n : Nat) (lower : List Nat) :
    symmMat (symFromLower n lower) := by
  intro i j
  by_cases hi : i < n
  · by_cases hj : j < n
    · rw [symFromLower, getD_map_range n i _ [] hi,
        getD_map_range n j _ [] hj, getD_map_range n j _ 0 hj,
        getD_map_range n i _ 0 hi]
      rcases Nat.le_total j i with h | h
      · rcases Nat.eq_or_lt_of_le h with rfl | hlt
        · simp
        · rw [if_pos h, if_neg (by omega)]
      · rcases Nat.eq_or_lt_of_le h with rfl | hlt
        · simp
        · rw [if_neg (by omega), if_pos h]
    · rw [symFromLower_entry_bigcol n lower i j hi (by omega),
        symFromLower_entry_big n lower j i (by omega)]
  · rw [symFromLower_entry_big n lower i j (by omega)]
    by_cases hj : j < n
    · rw [symFromLower_entry_bigcol n lower j i hj (by omega)]
    · rw [symFromLower_entry_big n lower j i (by omega)]

/-- The expanded quadratic form bᵀ M b as a formal variable-linear
polynomial: the term for (j, k) has decision variable M[j][k] and monomial
b[j] * b[k]. -/
def quadForm (M : List (List Nat)) (b : List Monomial) :
    List (Nat × Monomial) :=
  ((List.range b.length).map (fun j => (List.range b.length).map (fun k =>
    ((M.getD j []).getD k 0, b.getD j 0 + b.getD k 0)))).flatten

/-- Modelled from the spec: the per-Gram pieces assembled by `AddSos` — for
each monomial basis in turn, consume the lower-triangle segment of the
remaining decision variables, build the symmetric Gram matrix from it, and
expand the quadratic form (§4.4; the body is not under the sources). -/
def sosPieces :
    List (List Monomial) → List Nat →
      List (List (List Nat) × List (Nat × Monomial))
  | [], _ => []
  | b :: bs, lower =>
    (symFromLower b.length (lower.take (gramLowerSize b.length)),
      quadForm (symFromLower b.length (lower.take (gramLowerSize b.length)))
        b) :: sosPieces bs (lower.drop (gramLowerSize b.length))

/-- Modelled from the spec: `GramAndMonomialBasis::AddSos` — constrain the
caller-supplied decision variables to form one symmetric psd Gram matrix per
monomial basis, and assert the polynomial identity between the sum of the
expanded quadratic forms and the target polynomial; the program is only
appended to, never solved (§4.4; the body is not under the sources). -/
def AddSos (g : GramAndMonomialBasis) (prog : MathematicalProgram)
    (gram_lower : List Nat) (target : PolyQ) : MathematicalProgram :=
  { psdConstraints := prog.psdConstraints ++
      (sosPieces g.monomial_basis gram_lower).map Prod.fst
    eqConstraints := prog.eqConstraints ++
      [(((sosPieces g.monomial_basis gram_lower).map Prod.snd).flatten,
        target)]
    solveCalls := prog.solveCalls }

theorem sosPieces_length (bs : List (List Monomial)) (lower : List Nat) :
    (sosPieces bs lower).length = bs.length := by
  induction bs generalizing lower with
  | nil => rfl
  | cons b bs ih => simp [sosPieces, ih]

theorem sosPieces_fst_symm (bs : List (List Monomial)) (lower : List Nat)
    (M : List (List Nat)) (hM : M ∈ (sosPieces bs lower).map Prod.fst) :
    symmMat M := by
  induction bs generalizing lower with
  | nil => simp [sosPieces] at hM
  | cons b bs ih =>
    simp only [sosPieces, List.map_cons, List.mem_cons] at hM
    rcases hM with rfl | hM
    · exact symFromLower_symm _ _
    · exact ih _ hM


/-- C2: `AddSos`, called with decision variables sized to the computed
layout, appends to the caller's program one symmetric psd-constrained Gram
matrix per basis of the layout (one when `num_y = 0`, one when
`with_cross_y`, `num_y` otherwise) and one polynomial-identity constraint
equating the target with the expanded quadratic form(s): `mᵀ X m` when
`num_y = 0`; `[m; y_0 m; ...; y_(num_y-1) m]ᵀ Y [m; y_0 m; ...]` with a
single Gram `Y` when `with_cross_y`; the sum over i of
`[m; y_i m]ᵀ Z_i [m; y_i m]` with `num_y` Grams otherwise.  Everything else
in the program — in particular the solve count — is untouched: `AddSos`
never solves. -/
theorem add_sos_spec (arr : MBArray) (y : Nat → Nat) (cy : Bool)
    (num_y : Nat) (prog : MathematicalProgram) (gram_lower : List Nat)
    (target : PolyQ)
    (h1 : arr.e1 = arr.e0.map (fun m => y 0 ::ₘ m))
    (h2 : arr.e2 = arr.e0.map (fun m => y 1 ::ₘ m))
    (h3 : arr.e3 = arr.e0.map (fun m => y 2 ::ₘ m))
    (hny : num_y ≤ 3)
    (hlen : gram_lower.length =
      (mkGramAndMonomialBasis arr cy num_y).gram_var_size) :
    (AddSos (mkGramAndMonomialBasis arr cy num_y) prog gram_lower
        target).solveCalls = prog.solveCalls ∧
    (AddSos (mkGramAndMonomialBasis arr cy num_y) prog gram_lower
        target).psdConstraints.take prog.psdConstraints.length =
      prog.psdConstraints ∧
    (AddSos (mkGramAndMonomialBasis arr cy num_y) prog gram_lower
        target).psdConstraints.length = prog.psdConstraints.length +
      (if num_y = 0 then 1 else if cy = true then 1 else num_y) ∧
    (∀ M ∈ (AddSos (mkGramAndMonomialBasis arr cy num_y) prog gram_lower
        target).psdConstraints.drop prog.psdConstraints.length,
      symmMat M) ∧
    (AddSos (mkGramAndMonomialBasis arr cy num_y) prog gram_lower
        target).eqConstraints = prog.eqConstraints ++
      [((if num_y = 0 then
            quadForm (symFromLower arr.e0.length gram_lower) arr.e0
          else if cy = true then
            quadForm (symFromLower ((1 + num_y) * arr.e0.length) gram_lower)
              (arr.e0 ++ ((List.range num_y).map (fun i =>
                arr.e0.map (fun m => y i ::ₘ m))).flatten)
          else
            ((List.range num_y).map (fun i =>
              quadForm
                (symFromLower (2 * arr.e0.length)
                  ((gram_lower.drop
                      (i * gramLowerSize (2 * arr.e0.length))).take
                    (gramLowerSize (2 * arr.e0.length))))
                (arr.e0 ++ arr.e0.map (fun m => y i ::ₘ m)))).flatten),
        target)] := by
  have hgl : ∀ k : Nat, gram_lower.length ≤ k →
      gram_lower.take k = gram_lower :=
    fun k hk => List.take_of_length_le hk
  refine ⟨rfl, ?_, ?_, ?_, ?_⟩
  · simp only [AddSos]
    exact List.take_left _ _
  · simp only [AddSos, List.length_append, List.length_map, sosPieces_length]
    congr 1
    by_cases h0 : num_y = 0
    · simp [mkGramAndMonomialBasis, h0]
    · by_cases hcy : cy <;> simp [mkGramAndMonomialBasis, h0, hcy]
  · intro M hM
    simp only [AddSos] at hM
    rw [List.drop_left] at hM
    exact sosPieces_fst_symm _ _ _ hM
  · by_cases h0 : num_y = 0
    · subst h0
      have hTK : gram_lower.take (gramLowerSize arr.e0.length) =
          gram_lower := by
        apply hgl
        rw [hlen]
        simp [mkGramAndMonomialBasis, GetGramVarSize]
    
      simp [AddSos, mkGramAndMonomialBasis, sosPieces, hTK]
    · have h1le : 1 ≤ num_y := by omega
      by_cases hcy : cy
      · have hmul : (1 + num_y) * arr.e0.length =
            arr.e0.length + num_y * arr.e0.length := by ring
        interval_cases num_y
        · have hmul1 : (1 + 1) * arr.e0.length =
              arr.e0.length + arr.e0.length := by ring
          rw [hmul1]
          have hTK : gram_lower.take
              (gramLowerSize (arr.e0.length + arr.e0.length)) =
              gram_lower := by
            apply hgl
            rw [hlen]
            simp [mkGramAndMonomialBasis, GetGramVarSize, hcy]
            rw [hmul1]
          simp [AddSos, mkGramAndMonomialBasis, hcy, sosPieces,
            List.range_succ, MBArray.entry, h1, hTK]
        · have hmul1 : (1 + 2) * arr.e0.length =
              arr.e0.length + (arr.e0.length + arr.e0.length) := by ring
          rw [hmul1]
          have hTK : gram_lower.take
              (gramLowerSize
                (arr.e0.length + (arr.e0.length + arr.e0.length))) =
              gram_lower := by
            apply hgl
            rw [hlen]
            simp [mkGramAndMonomialBasis, GetGramVarSize, hcy]
            rw [hmul1]
          simp [AddSos, mkGramAndMonomialBasis, hcy, sosPieces,
            List.range_succ, MBArray.entry, h1, h2, hTK]
        · have hmul1 : (1 + 3) * arr.e0.length =
              arr.e0.length +
                (arr.e0.length + (arr.e0.length + arr.e0.length)) := by ring
          rw [hmul1]
          have hTK : gram_lower.take
              (gramLowerSize (arr.e0.length +
                (arr.e0.length + (arr.e0.length + arr.e0.length)))) =
              gram_lower := by
            apply hgl
            rw [hlen]
            simp [mkGramAndMonomialBasis, GetGramVarSize, hcy]
            rw [hmul1]
          simp [AddSos, mkGramAndMonomialBasis, hcy, sosPieces,
            List.range_succ, MBArray.entry, h1, h2, h3, hTK]
      · have hmul1 : 2 * arr.e0.length =
            arr.e0.length + arr.e0.length := by ring
        rw [hmul1]
        interval_cases num_y
        · simp [AddSos, mkGramAndMonomialBasis, hcy, sosPieces,
            List.range_succ, MBArray.entry, h1]
        · simp [AddSos, mkGramAndMonomialBasis, hcy, sosPieces,
            List.range_succ, MBArray.entry, h1, h2, List.drop_drop, two_mul]
        · simp [AddSos, mkGramAndMonomialBasis, hcy, sosPieces,
            List.range_succ, MBArray.entry, h1, h2, h3, List.drop_drop,
            two_mul]


/-- Witness for C2 at a concrete input: a one-monomial basis array with
slack variables 10, 11, 12, no cross terms, `num_y = 1`, three decision
variables, an empty target, and a program with 5 prior solve calls. -/
theorem add_sos_spec_witness :
    ([7, 8, 9] : List Nat).length =
      (mkGramAndMonomialBasis (MBArray.mk [0] [{10}] [{11}] [{12}])
        false 1).gram_var_size ∧
    (AddSos (mkGramAndMonomialBasis (MBArray.mk [0] [{10}] [{11}] [{12}])
        false 1) (MathematicalProgram.mk [] [] 5) [7, 8, 9] []).solveCalls
      = 5 :=
  ⟨by decide,
    (add_sos_spec (MBArray.mk [0] [{10}] [{11}] [{12}])
      (fun i => 10 + i) false 1 (MathematicalProgram.mk [] [] 5) [7, 8, 9]
      [] (by decide) (by decide) (by decide) (by decide) (by decide)).1⟩

end CspaceFree
